import Mathlib

/-!
Verification of the incremental-execution core (`@defer` / `@stream`) of a
GraphQL engine.  The definitions below are a shallow embedding of the
JavaScript sources: the patch dispatcher (`src/execution/dispatcher.js`,
`hasNext` era), the response-path utilities, the stream driver, the field
collector and the stream-conflict validation rule.  Asynchronous behaviour
(promise settlement, interleaved scheduling) is modelled as a small-step
interpreter driven by an explicit event schedule, so that every allowed
JavaScript interleaving corresponds to an event list.
-/

set_option autoImplicit false

namespace GraphQLIncremental

/-- A response-path segment: a field response key (string) or a list index. -/
inductive Seg where
  | key (s : String)
  | idx (n : Nat)
  deriving DecidableEq, Repr

mutual

/-- A JSON-like completed value, as produced by the value completor. -/
inductive Value where
  | vnull
  | vbool (b : Bool)
  | vnum (n : Int)
  | vstr (s : String)
  | vlist (xs : ValueList)
  | vobj (fields : ObjFields)

/-- A list of values (list field results). -/
inductive ValueList where
  | nil
  | cons (v : Value) (rest : ValueList)

/-- Ordered fields of an object value (response key to value). -/
inductive ObjFields where
  | nil
  | cons (k : String) (v : Value) (rest : ObjFields)

end

mutual

/-- Decidable equality for `Value`. -/
def Value.decEq : (a b : Value) → Decidable (a = b)
  | .vnull, .vnull => isTrue rfl
  | .vbool a, .vbool b =>
      if h : a = b then isTrue (by rw [h]) else isFalse (by intro hc; cases hc; exact h rfl)
  | .vnum a, .vnum b =>
      if h : a = b then isTrue (by rw [h]) else isFalse (by intro hc; cases hc; exact h rfl)
  | .vstr a, .vstr b =>
      if h : a = b then isTrue (by rw [h]) else isFalse (by intro hc; cases hc; exact h rfl)
  | .vlist a, .vlist b =>
      match ValueList.decEq a b with
      | isTrue h => isTrue (by rw [h])
      | isFalse h => isFalse (by intro hc; cases hc; exact h rfl)
  | .vobj a, .vobj b =>
      match ObjFields.decEq a b with
      | isTrue h => isTrue (by rw [h])
      | isFalse h => isFalse (by intro hc; cases hc; exact h rfl)
  | .vnull, .vbool _ | .vnull, .vnum _ | .vnull, .vstr _ | .vnull, .vlist _
  | .vnull, .vobj _ | .vbool _, .vnull | .vbool _, .vnum _ | .vbool _, .vstr _
  | .vbool _, .vlist _ | .vbool _, .vobj _ | .vnum _, .vnull | .vnum _, .vbool _
  | .vnum _, .vstr _ | .vnum _, .vlist _ | .vnum _, .vobj _ | .vstr _, .vnull
  | .vstr _, .vbool _ | .vstr _, .vnum _ | .vstr _, .vlist _ | .vstr _, .vobj _
  | .vlist _, .vnull | .vlist _, .vbool _ | .vlist _, .vnum _ | .vlist _, .vstr _
  | .vlist _, .vobj _ | .vobj _, .vnull | .vobj _, .vbool _ | .vobj _, .vnum _
  | .vobj _, .vstr _ | .vobj _, .vlist _ => isFalse (by intro hc; cases hc)

/-- Decidable equality for `ValueList`. -/
def ValueList.decEq : (a b : ValueList) → Decidable (a = b)
  | .nil, .nil => isTrue rfl
  | .cons v r, .cons v' r' =>
      match Value.decEq v v', ValueList.decEq r r' with
      | isTrue h1, isTrue h2 => isTrue (by rw [h1, h2])
      | isFalse h1, _ => isFalse (by intro hc; cases hc; exact h1 rfl)
      | _, isFalse h2 => isFalse (by intro hc; cases hc; exact h2 rfl)
  | .nil, .cons _ _ | .cons _ _, .nil => isFalse (by intro hc; cases hc)

/-- Decidable equality for `ObjFields`. -/
def ObjFields.decEq : (a b : ObjFields) → Decidable (a = b)
  | .nil, .nil => isTrue rfl
  | .cons k v r, .cons k' v' r' =>
      match decEq k k', Value.decEq v v', ObjFields.decEq r r' with
      | isTrue h0, isTrue h1, isTrue h2 => isTrue (by rw [h0, h1, h2])
      | isFalse h0, _, _ => isFalse (by intro hc; cases hc; exact h0 rfl)
      | _, isFalse h1, _ => isFalse (by intro hc; cases hc; exact h1 rfl)
      | _, _, isFalse h2 => isFalse (by intro hc; cases hc; exact h2 rfl)
  | .nil, .cons _ _ _ | .cons _ _ _, .nil => isFalse (by intro hc; cases hc)

end

instance : DecidableEq Value := Value.decEq

instance : DecidableEq ValueList := ValueList.decEq

instance : DecidableEq ObjFields := ObjFields.decEq

/-- A located error (`GraphQLError`): message, AST locations and response path. -/
structure GraphQLError where
  message : String
  locations : List (Nat × Nat)
  path : List Seg
  deriving DecidableEq, Repr

/-- Modelled from the spec: `Path.js` is not under `src/`; §2-C1/§3
describe the `jsutils/Path` node as an immutable reverse-linked
response-path node (a record of a previous path — `undefined` at the
root — and a key) flattened to an array at emission.  `root k` is a node
whose `prev` is `undefined`. -/
inductive Path where
  | root (key : Seg)
  | node (prev : Path) (key : Seg)
  deriving DecidableEq, Repr

/-- Modelled from the spec: flattening of one `Path.js` node (the
segments of `prev`, then its own key). -/
def Path.toList : Path → List Seg
  | .root k => [k]
  | .node p k => p.toList ++ [k]

/-- Modelled from the spec: `pathToArray` of `Path.js` (not under `src/`) —
flattens an optional path; `undefined` flattens to the empty array. -/
def pathToArray : Option Path → List Seg
  | none => []
  | some p => p.toList

/-- The initial execution result record (`ExecutionResult` without the
`hasNext` field, which is attached at emission time by the dispatcher). -/
structure ExecutionResult where
  data : Option Value
  errors : List GraphQLError
  deriving DecidableEq

/-- The value part of an execution patch (`ExecutionPatchResult` without
`hasNext`).  Every field is optional so that presence/absence of a key on
the emitted JavaScript object is captured (`none` = key absent). -/
structure ExecutionPatchResult where
  errors : Option (List GraphQLError)
  data : Option Value
  path : Option (List Seg)
  label : Option String
  deriving DecidableEq

namespace Dispatcher

/-- An entry of the dispatcher's `_patches` array: a promise that either
fulfills with a patch value or rejects (`add` installs no rejection
handler, so a rejecting worker yields a forever-rejected entry). -/
inductive PatchPromise where
  | fulfilled (value : ExecutionPatchResult)
  | rejected
  deriving DecidableEq

/-- The patch value built by `Dispatcher.add` when the worker fulfills with
`data`: `data` and `path` are always set, `label` only when non-null, and
`errors` only when the sink is non-empty (part_003 lines 92-108). -/
def addValue (label : Option String) (path : Option Path) (data : Value)
    (errors : List GraphQLError) : ExecutionPatchResult :=
  { data := some data
    path := some (pathToArray path)
    label := label
    errors := if errors = [] then none else some errors }

/-- The promise pushed by `Dispatcher.add`: `execute(fn).then(...)` with no
rejection handler, so a rejecting worker produces a rejected entry. -/
def addPromise (label : Option String) (path : Option Path)
    (result : Except Unit Value) (errors : List GraphQLError) : PatchPromise :=
  match result with
  | .ok data => .fulfilled (addValue label path data errors)
  | .error _ => .rejected

/-- An element yielded by the lazy result sequence: the initial result or a
patch, each tagged with the `hasNext` flag attached at emission. -/
inductive AsyncExecutionResult where
  | initial (r : ExecutionResult) (hasNext : Bool)
  | patch (p : ExecutionPatchResult) (hasNext : Bool)
  deriving DecidableEq

/-- The `hasNext` flag carried by a yielded element. -/
def hasNextOf : AsyncExecutionResult → Bool
  | .initial _ h => h
  | .patch _ h => h

/-- Whether a yielded element is a patch (not the initial result). -/
def isPatchElem : AsyncExecutionResult → Bool
  | .initial _ _ => false
  | .patch _ _ => true

/-- State of one consumption of `Dispatcher.get`:
`patches` is the live `_patches` array (shared with `add`),
`hasReturnedInitialResult` the flag of `get`, `pending` an in-flight pull
(`race`): the `hasNext` flag and the snapshot length captured when the race
started, `emitted` the elements yielded so far.  `sawFinalRace` and `good`
are instrumentation only (they never influence the other fields):
`sawFinalRace` records that some pull began with exactly one outstanding
patch, and `good` latches to `false` if a patch is added at or after that
point. -/
structure DState where
  patches : List PatchPromise
  hasReturnedInitialResult : Bool
  pending : Option (Bool × Nat)
  emitted : List AsyncExecutionResult
  sawFinalRace : Bool
  good : Bool
  deriving DecidableEq

/-- The state before any event: empty pool, nothing emitted. -/
def DState.start : DState :=
  { patches := []
    hasReturnedInitialResult := false
    pending := none
    emitted := []
    sawFinalRace := false
    good := true }

/-- Events of one execution interleaving: a worker scheduling a patch
(`Dispatcher.add` with the worker's settlement), the consumer calling
`next()` on the lazy sequence, or the `i`-th promise of the current race
snapshot winning the race. -/
inductive DEvent where
  | add (label : Option String) (path : Option Path)
        (result : Except Unit Value) (errors : List GraphQLError)
  | next
  | settle (i : Nat)

/-- One step of the dispatcher semantics (part_003 lines 86-164).
`add` pushes to the live array.  `next` yields the initial result first
(with `hasNext: true` unconditionally), returns the done sentinel when the
pool is empty, and otherwise starts a race, capturing
`hasNext = (promises.length !== 1)` at that moment — additions during the
await are not seen by the race.  `settle i` resolves the race with the
`i`-th promise of the snapshot (only a fulfilled promise can win; `race`
installs no rejection handler), yields its value with the captured flag and
splices it out of the live array. -/
def step (init : ExecutionResult) (st : DState) : DEvent → DState
  | .add label path result errors =>
      { st with
        patches := st.patches ++ [addPromise label path result errors]
        good := st.good && !st.sawFinalRace }
  | .next =>
      match st.pending, st.hasReturnedInitialResult with
      | some _, _ => st
      | none, false =>
          { st with
            hasReturnedInitialResult := true
            emitted := st.emitted ++ [.initial init true] }
      | none, true =>
          match st.patches with
          | [] => st
          | _ :: _ =>
              { st with
                pending := some (st.patches.length != 1, st.patches.length)
                sawFinalRace := st.sawFinalRace || st.patches.length == 1 }
  | .settle i =>
      match st.pending with
      | none => st
      | some (hasNext, n) =>
        if i < n then
          match st.patches.get? i with
          | some (.fulfilled v) =>
              { st with
                patches := st.patches.eraseIdx i
                pending := none
                emitted := st.emitted ++ [.patch v hasNext] }
          | _ => st
        else st

/-- Run the dispatcher from the start state through an event schedule. -/
def run (init : ExecutionResult) (events : List DEvent) : DState :=
  events.foldl (step init) DState.start

/-- The sequence has terminated: the initial result was yielded, no pull is
in flight, and the pool is empty, so the next pull returns the done
sentinel. -/
def complete (st : DState) : Prop :=
  st.hasReturnedInitialResult = true ∧ st.pending = none ∧ st.patches = []

instance (st : DState) : Decidable (complete st) := by
  unfold complete; infer_instance

/-- Number of yielded elements carrying `hasNext: false`. -/
def terminalCount (l : List AsyncExecutionResult) : Nat :=
  l.countP (fun e => !hasNextOf e)

/-- Whether some yielded element is a patch. -/
def payloadEmitted (l : List AsyncExecutionResult) : Bool :=
  l.any isPatchElem

/-- Membership survives erasing an index that holds a different element. -/
theorem mem_eraseIdx_of_ne {α : Type} {a b : α} :
    ∀ (l : List α) (i : Nat), a ∈ l → l.get? i = some b → a ≠ b →
      a ∈ l.eraseIdx i
  | [], _, hmem, _, _ => absurd hmem (List.not_mem_nil a)
  | x :: xs, 0, hmem, hget, hne => by
      simp only [List.get?] at hget
      cases hget
      simp only [List.eraseIdx]
      rcases List.mem_cons.mp hmem with h | h
      · exact absurd h hne
      · exact h
  | x :: xs, i + 1, hmem, hget, hne => by
      simp only [List.get?] at hget
      simp only [List.eraseIdx]
      rcases List.mem_cons.mp hmem with h | h
      · exact List.mem_cons.mpr (Or.inl h)
      · exact List.mem_cons.mpr (Or.inr (mem_eraseIdx_of_ne xs i h hget hne))

/-- Running an appended schedule continues from the intermediate state. -/
theorem run_append (init : ExecutionResult) (evs1 evs2 : List DEvent) :
    run init (evs1 ++ evs2) = evs2.foldl (step init) (run init evs1) :=
  List.foldl_append _ _ _ _

/-- The first yielded element is the initial result: before the first pull
nothing is emitted and no race is pending; afterwards the head of the
emission list is the initial result tagged `hasNext: true`. -/
def InitFirst (init : ExecutionResult) (st : DState) : Prop :=
  (st.hasReturnedInitialResult = false → st.emitted = [] ∧ st.pending = none)
    ∧ (st.hasReturnedInitialResult = true →
        st.emitted.head? = some (.initial init true))

theorem initFirst_start (init : ExecutionResult) : InitFirst init DState.start := by
  constructor
  · intro _; exact ⟨rfl, rfl⟩
  · intro h; cases h

theorem initFirst_step (init : ExecutionResult) (st : DState) (e : DEvent)
    (h : InitFirst init st) : InitFirst init (step init st e) := by
  obtain ⟨h0, h1⟩ := h
  cases e with
  | add label path result errors =>
      exact ⟨fun hr => h0 hr, fun hr => h1 hr⟩
  | next =>
      cases hpend : st.pending with
      | some fn => simp only [step, hpend]; exact ⟨h0, h1⟩
      | none =>
          cases hr : st.hasReturnedInitialResult with
          | false =>
              simp only [step, hpend, hr]
              constructor
              · intro habs; cases habs
              · intro _
                obtain ⟨he, _⟩ := h0 hr
                simp [he]
          | true =>
              cases hps : st.patches with
              | nil => simp only [step, hpend, hr, hps]; exact ⟨h0, h1⟩
              | cons p ps =>
                  simp only [step, hpend, hr, hps]
                  constructor
                  · intro habs; cases habs
                  · intro _; exact h1 hr
  | settle i =>
      cases hpend : st.pending with
      | none => simp only [step, hpend]; exact ⟨h0, h1⟩
      | some fn =>
          obtain ⟨f, n⟩ := fn
          simp only [step, hpend]
          by_cases hi : i < n
          · simp only [hi, if_true]
            cases hget : st.patches.get? i with
            | none => exact ⟨h0, h1⟩
            | some pp =>
                cases pp with
                | rejected => exact ⟨h0, h1⟩
                | fulfilled v =>
                    constructor
                    · intro hr
                      obtain ⟨_, hpnone⟩ := h0 hr
                      rw [hpnone] at hpend; cases hpend
                    · intro hr
                      have := h1 hr
                      cases hemit : st.emitted with
                      | nil => simp [hemit] at this
                      | cons a rest =>
                          simp only [hemit, List.head?] at this
                          simp [hemit, this]
          · simp only [hi, if_false]; exact ⟨h0, h1⟩

theorem initFirst_run (init : ExecutionResult) (evs : List DEvent) :
    InitFirst init (run init evs) := by
  induction evs using List.reverseRecOn with
  | nil => exact initFirst_start init
  | append_singleton evs e ih =>
      rw [run_append]
      exact initFirst_step init (run init evs) e ih

/-- Unfolding of `terminalCount` over appending one element. -/
theorem terminalCount_concat (l : List AsyncExecutionResult)
    (e : AsyncExecutionResult) :
    terminalCount (l ++ [e]) =
      terminalCount l + (if hasNextOf e then 0 else 1) := by
  simp [terminalCount, List.countP_append, List.countP_cons]
  cases hasNextOf e <;> simp

/-- Unfolding of `payloadEmitted` over appending one element. -/
theorem payloadEmitted_concat (l : List AsyncExecutionResult)
    (e : AsyncExecutionResult) :
    payloadEmitted (l ++ [e]) = (payloadEmitted l || isPatchElem e) := by
  simp [payloadEmitted, List.any_append]

/-- A pool of length one whose head is known is that singleton. -/
theorem pool_singleton (v : PatchPromise) (l : List PatchPromise)
    (h : l.length = 1) (hg : l.get? 0 = some v) : l = [v] := by
  cases l with
  | nil => simp at h
  | cons a rest =>
      cases rest with
      | nil => simp [List.get?] at hg; simp [hg]
      | cons b r => simp at h

/-- Invariant of the dispatcher semantics for well-behaved schedules (the
`good` instrumentation still true): before the initial result is returned
nothing is emitted; while no pull has yet begun with a single outstanding
patch, no element carries `hasNext: false`, a patch element implies a
non-empty pool, and any pending race carries flag `true` over at least two
promises; once some pull has begun with a single outstanding patch, either
that race is still pending or it has delivered the unique terminal
element, which is the last one emitted. -/
def TerminalInv (st : DState) : Prop :=
  st.good = true →
    ((st.hasReturnedInitialResult = false →
        st.emitted = [] ∧ st.pending = none ∧ st.sawFinalRace = false)
     ∧ (st.sawFinalRace = false →
          terminalCount st.emitted = 0
          ∧ (payloadEmitted st.emitted = true → st.patches ≠ [])
          ∧ ∀ f n, st.pending = some (f, n) →
              f = true ∧ 2 ≤ n ∧ n ≤ st.patches.length)
     ∧ (st.sawFinalRace = true →
          st.hasReturnedInitialResult = true
          ∧ ((st.pending = some (false, 1) ∧ st.patches.length = 1
                ∧ terminalCount st.emitted = 0)
             ∨ (st.pending = none ∧ st.patches = []
                ∧ terminalCount st.emitted = 1
                ∧ ∃ e, st.emitted.getLast? = some e ∧ hasNextOf e = false))))

theorem terminalInv_start : TerminalInv DState.start := by
  intro _
  refine ⟨fun _ => ⟨rfl, rfl, rfl⟩, fun _ => ⟨rfl, ?_, ?_⟩, fun habs => ?_⟩
  · intro habs; cases habs
  · intro f n habs; cases habs
  · cases habs

theorem terminalInv_step (init : ExecutionResult) (st : DState) (e : DEvent)
    (h : TerminalInv st) : TerminalInv (step init st e) := by
  cases e with
  | add label path result errors =>
      intro hg
      have hgg : (st.good && !st.sawFinalRace) = true := hg
      have hgo : st.good = true := by
        cases hsg : st.good
        · rw [hsg] at hgg; simp at hgg
        · rfl
      have hsw : st.sawFinalRace = false := by
        cases hsg : st.sawFinalRace
        · rfl
        · rw [hsg] at hgg; simp at hgg
      obtain ⟨hA, hB, hC⟩ := h hgo
      refine ⟨?_, ?_, ?_⟩
      · intro hr; exact hA hr
      · intro _
        obtain ⟨tc, _, pok⟩ := hB hsw
        refine ⟨tc, ?_, ?_⟩
        · intro _
          show ¬(st.patches ++ [addPromise label path result errors] = [])
          simp
        · intro f n hpeq
          have hpeq2 : st.pending = some (f, n) := hpeq
          obtain ⟨hf, h2, hlen⟩ := pok f n hpeq2
          refine ⟨hf, h2, ?_⟩
          show n ≤ (st.patches ++ [addPromise label path result errors]).length
          simp only [List.length_append, List.length_cons, List.length_nil]
          omega
      · intro habs
        have habs2 : st.sawFinalRace = true := habs
        rw [hsw] at habs2; cases habs2
  | next =>
      cases hpend : st.pending with
      | some fn => simp only [step, hpend]; exact h
      | none =>
          cases hr : st.hasReturnedInitialResult with
          | false =>
              simp only [step, hpend, hr]
              intro hg
              obtain ⟨hA, hB, hC⟩ := h hg
              obtain ⟨he, hpn, hsw⟩ := hA hr
              refine ⟨?_, ?_, ?_⟩
              · intro habs; cases habs
              · intro _
                refine ⟨?_, ?_, ?_⟩
                · show terminalCount (st.emitted ++ [.initial init true]) = 0
                  rw [he, terminalCount_concat]
                  simp [terminalCount, hasNextOf]
                · intro hpay
                  have hpay2 :
                      payloadEmitted (st.emitted ++ [.initial init true]) = true :=
                    hpay
                  rw [he] at hpay2
                  simp [payloadEmitted, isPatchElem] at hpay2
                · intro f n habs
                  have habs2 : (none : Option (Bool × Nat)) = some (f, n) :=
                    habs
                  cases habs2
              · intro habs
                have habs2 : st.sawFinalRace = true := habs
                rw [hsw] at habs2; cases habs2
          | true =>
              cases hps : st.patches with
              | nil => simp only [step, hpend, hr, hps]; exact h
              | cons p ps =>
                  simp only [step, hpend, hr, hps]
                  intro hg
                  obtain ⟨hA, hB, hC⟩ := h hg
                  cases hs : st.sawFinalRace with
                  | true =>
                      exfalso
                      obtain ⟨_, hdis⟩ := hC hs
                      rcases hdis with ⟨hp1, _, _⟩ | ⟨_, hpool, _, _⟩
                      · rw [hpend] at hp1; cases hp1
                      · rw [hps] at hpool; cases hpool
                  | false =>
                      obtain ⟨tc, pe, _⟩ := hB hs
                      cases ps with
                      | nil =>
                          refine ⟨?_, ?_, ?_⟩
                          · intro habs; cases habs
                          · intro habs
                            have habs2 :
                                (false || ([p].length == 1)) = false := habs
                            simp at habs2
                          · intro _
                            exact ⟨rfl, Or.inl ⟨rfl, rfl, tc⟩⟩
                      | cons q qs =>
                          refine ⟨?_, ?_, ?_⟩
                          · intro habs; cases habs
                          · intro _
                            refine ⟨tc, ?_, ?_⟩
                            · intro _
                              show ¬(p :: q :: qs = [])
                              simp
                            · intro f n hpeq
                              have hpeq2 :
                                  (some (((p :: q :: qs).length != 1),
                                    (p :: q :: qs).length) :
                                      Option (Bool × Nat)) = some (f, n) :=
                                hpeq
                              simp only [Option.some.injEq, Prod.mk.injEq]
                                at hpeq2
                              obtain ⟨hf, hn⟩ := hpeq2
                              refine ⟨?_, ?_, ?_⟩
                              · rw [← hf]
                                simp [List.length_cons]
                              · rw [← hn]
                                simp [List.length_cons]
                              · show n ≤ (p :: q :: qs).length
                                rw [← hn]
                          · intro habs
                            have habs2 :
                                (false
                                  || ((p :: q :: qs).length == 1)) = true :=
                              habs
                            simp [List.length_cons] at habs2
  | settle i =>
      cases hpend : st.pending with
      | none => simp only [step, hpend]; exact h
      | some fn =>
          obtain ⟨f, n⟩ := fn
          simp only [step, hpend]
          by_cases hi : i < n
          · rw [if_pos hi]
            cases hget : st.patches.get? i with
            | none => exact h
            | some pp =>
                cases pp with
                | rejected => exact h
                | fulfilled v =>
                    intro hg
                    have hgo : st.good = true := hg
                    obtain ⟨hA, hB, hC⟩ := h hgo
                    have hr : st.hasReturnedInitialResult = true := by
                      cases hret : st.hasReturnedInitialResult
                      · obtain ⟨_, hp0, _⟩ := hA hret
                        rw [hp0] at hpend; cases hpend
                      · rfl
                    cases hs : st.sawFinalRace with
                    | false =>
                        obtain ⟨tc, _, pok⟩ := hB hs
                        obtain ⟨hf, h2, hlen⟩ := pok f n hpend
                        refine ⟨?_, ?_, ?_⟩
                        · intro habs
                          have habs2 : st.hasReturnedInitialResult = false := habs
                          rw [hr] at habs2; cases habs2
                        · intro _
                          refine ⟨?_, ?_, ?_⟩
                          · show terminalCount
                                (st.emitted ++ [.patch v f]) = 0
                            rw [terminalCount_concat, hf]
                            simp [hasNextOf, tc]
                          · intro _ hnil
                            have hnil2 : st.patches.eraseIdx i = [] := hnil
                            have hlt : i < st.patches.length :=
                              lt_of_lt_of_le hi hlen
                            have hL := List.length_eraseIdx_add_one hlt
                            rw [hnil2] at hL
                            simp at hL
                            omega
                          · intro f2 n2 habs
                            have habs2 :
                                (none : Option (Bool × Nat)) = some (f2, n2) :=
                              habs
                            cases habs2
                        · intro habs
                          cases habs
                    | true =>
                        obtain ⟨_, hdis⟩ := hC hs
                        rcases hdis with ⟨hp1, hlen1, htc⟩ | ⟨hpnone, _, _⟩
                        · rw [hpend] at hp1
                          simp only [Option.some.injEq, Prod.mk.injEq] at hp1
                          obtain ⟨hf, hn⟩ := hp1
                          have hi0 : i = 0 := by omega
                          subst hi0
                          have hpl : st.patches = [.fulfilled v] :=
                            pool_singleton _ _ hlen1 hget
                          refine ⟨?_, ?_, ?_⟩
                          · intro habs
                            have habs2 : st.hasReturnedInitialResult = false :=
                              habs
                            rw [hr] at habs2; cases habs2
                          · intro habs
                            cases habs
                          · intro _
                            refine ⟨hr, Or.inr ⟨rfl, ?_, ?_, ?_⟩⟩
                            · show st.patches.eraseIdx 0 = []
                              rw [hpl]; rfl
                            · show terminalCount
                                  (st.emitted ++ [.patch v f]) = 1
                              rw [terminalCount_concat, hf]
                              simp [hasNextOf, htc]
                            · refine ⟨AsyncExecutionResult.patch v f, ?_, ?_⟩
                              · show (st.emitted
                                      ++ [AsyncExecutionResult.patch v f]).getLast?
                                    = some (AsyncExecutionResult.patch v f)
                                exact List.getLast?_concat _
                              · rw [hf]; rfl
                        · rw [hpnone] at hpend; cases hpend
          · rw [if_neg hi]; exact h

theorem terminalInv_run (init : ExecutionResult) (evs : List DEvent) :
    TerminalInv (run init evs) := by
  induction evs using List.reverseRecOn with
  | nil => exact terminalInv_start
  | append_singleton evs e ih =>
      rw [run_append]
      exact terminalInv_step init (run init evs) e ih

/-- The schedule of C1's failure: one patch is outstanding, the consumer
pulls (the race captures `hasNext = false` since `promises.length === 1`),
and while that final patch is being awaited its worker schedules a second
patch; both patches are then delivered. -/
def scheduleLateAdd : List DEvent :=
  [.add none none (.ok (.vnum 1)) [], .next, .next,
   .add none none (.ok (.vnum 2)) [], .settle 0, .next, .settle 0]

/-- C1 counterexample: under the schedule in which a deferred worker
schedules a new patch while the final outstanding patch is being awaited,
the fully consumed lazy sequence contains two elements with
`hasNext: false` (the flag of a pull is captured when the race starts, not
recomputed at settlement), so the claimed uniqueness fails. -/
theorem hasNext_false_not_unique_on_late_add :
    complete (run ⟨none, []⟩ scheduleLateAdd)
      ∧ payloadEmitted (run ⟨none, []⟩ scheduleLateAdd).emitted = true
      ∧ ¬ terminalCount (run ⟨none, []⟩ scheduleLateAdd).emitted = 1
      ∧ terminalCount (run ⟨none, []⟩ scheduleLateAdd).emitted = 2 := by
  decide

/-- C1 (amended): for every fully consumed lazy patch sequence that yielded
at least one patch, if no patch is scheduled at or after the start of the
pull that races a single outstanding patch (the `good` instrumentation),
then exactly one yielded element carries `hasNext: false` and it is the
last element yielded.  The flag is recomputed at the start of every pull
(`promises.length !== 1`), but it is fixed for the duration of that pull,
so a patch scheduled while the final outstanding patch is being awaited
produces a second `hasNext: false` element. -/
theorem hasNext_false_unique_and_last_of_good (init : ExecutionResult)
    (evs : List DEvent)
    (hgood : (run init evs).good = true)
    (hcomp : complete (run init evs))
    (hpay : payloadEmitted (run init evs).emitted = true) :
    terminalCount (run init evs).emitted = 1
      ∧ ∃ e, (run init evs).emitted.getLast? = some e
          ∧ hasNextOf e = false := by
  obtain ⟨hA, hB, hC⟩ := terminalInv_run init evs hgood
  obtain ⟨hr, hpend, hpool⟩ := hcomp
  cases hs : (run init evs).sawFinalRace with
  | false =>
      obtain ⟨_, pe, _⟩ := hB hs
      exact absurd hpool (pe hpay)
  | true =>
      obtain ⟨_, hdis⟩ := hC hs
      rcases hdis with ⟨hp1, _, _⟩ | ⟨_, _, htc, hlast⟩
      · rw [hpend] at hp1; cases hp1
      · exact ⟨htc, hlast⟩

/-- A well-behaved schedule: two patches outstanding before consumption,
drained in completion order. -/
def scheduleTwoPatches : List DEvent :=
  [.add none none (.ok (.vnum 1)) [], .add none none (.ok (.vnum 2)) [],
   .next, .next, .settle 1, .next, .settle 0, .next]

/-- Witness for the amended C1 theorem at a concrete two-patch schedule in
which both patches are outstanding before consumption begins. -/
theorem hasNext_false_unique_and_last_of_good_witness :
    ((run ⟨none, []⟩ scheduleTwoPatches).good = true
      ∧ complete (run ⟨none, []⟩ scheduleTwoPatches)
      ∧ payloadEmitted (run ⟨none, []⟩ scheduleTwoPatches).emitted = true)
      ∧ (terminalCount (run ⟨none, []⟩ scheduleTwoPatches).emitted = 1
          ∧ ∃ e, (run ⟨none, []⟩ scheduleTwoPatches).emitted.getLast?
              = some e ∧ hasNextOf e = false) :=
  ⟨⟨by decide, by decide, by decide⟩,
    hasNext_false_unique_and_last_of_good ⟨none, []⟩ scheduleTwoPatches
      (by decide) (by decide) (by decide)⟩

/-- C4: whenever one consumption of the lazy sequence has yielded anything,
its first element is the initial result — no patch is ever yielded before
it — and that element carries `hasNext: true` unconditionally, whatever the
pool contents (in the source both the promise and the plain-value branches
of `getNext` attach `hasNext: true` to the initial result). -/
theorem first_element_is_initial_with_hasNext_true (init : ExecutionResult)
    (evs : List DEvent) (h : (run init evs).emitted ≠ []) :
    (run init evs).emitted.head? = some (.initial init true) := by
  obtain ⟨h0, h1⟩ := initFirst_run init evs
  cases hret : (run init evs).hasReturnedInitialResult with
  | false => exact absurd (h0 hret).1 h
  | true => exact h1 hret

/-- Witness for C4: a single pull on an empty pool yields exactly the
initial result with `hasNext: true`. -/
theorem first_element_is_initial_with_hasNext_true_witness :
    (run ⟨none, []⟩ [DEvent.next]).emitted ≠ []
      ∧ (run ⟨none, []⟩ [DEvent.next]).emitted.head?
          = some (.initial ⟨none, []⟩ true) :=
  ⟨by decide,
    first_element_is_initial_with_hasNext_true ⟨none, []⟩ [DEvent.next]
      (by decide)⟩

/-- Every pool entry and every emitted patch originates from a
`Dispatcher.add` call: a rejected entry, or the payload built by `add` from
the worker's data, the schedule-time label and path, and the errors sink as
read at settlement. -/
def FromAdd (st : DState) : Prop :=
  (∀ pr ∈ st.patches,
      pr = PatchPromise.rejected
        ∨ ∃ l pa d es, pr = PatchPromise.fulfilled (addValue l pa d es))
    ∧ ∀ p hflag, AsyncExecutionResult.patch p hflag ∈ st.emitted →
        ∃ l pa d es, p = addValue l pa d es

theorem fromAdd_start : FromAdd DState.start := by
  constructor
  · intro pr hpr; cases hpr
  · intro p hflag hmem; cases hmem

theorem fromAdd_step (init : ExecutionResult) (st : DState) (e : DEvent)
    (h : FromAdd st) : FromAdd (step init st e) := by
  obtain ⟨hpool, hemit⟩ := h
  cases e with
  | add label path result errors =>
      constructor
      · intro pr hpr
        have hpr2 :
            pr ∈ st.patches ++ [addPromise label path result errors] := hpr
        rcases List.mem_append.mp hpr2 with hm | hm
        · exact hpool pr hm
        · have : pr = addPromise label path result errors := by
            simpa using hm
          cases result with
          | ok d => exact Or.inr ⟨label, path, d, errors, this⟩
          | error u => exact Or.inl this
      · intro p hflag hmem; exact hemit p hflag hmem
  | next =>
      cases hpend : st.pending with
      | some fn => simp only [step, hpend]; exact ⟨hpool, hemit⟩
      | none =>
          cases hr : st.hasReturnedInitialResult with
          | false =>
              simp only [step, hpend, hr]
              constructor
              · intro pr hpr; exact hpool pr hpr
              · intro p hflag hmem
                have hmem2 :
                    AsyncExecutionResult.patch p hflag
                      ∈ st.emitted ++ [.initial init true] := hmem
                rcases List.mem_append.mp hmem2 with hm | hm
                · exact hemit p hflag hm
                · simp at hm
          | true =>
              cases hps : st.patches with
              | nil => simp only [step, hpend, hr, hps]; exact ⟨hpool, hemit⟩
              | cons p0 ps =>
                  simp only [step, hpend, hr, hps]
                  constructor
                  · intro pr hpr
                    exact hpool pr (by rw [hps]; exact hpr)
                  · intro p hflag hmem; exact hemit p hflag hmem
  | settle i =>
      cases hpend : st.pending with
      | none => simp only [step, hpend]; exact ⟨hpool, hemit⟩
      | some fn =>
          obtain ⟨f, n⟩ := fn
          simp only [step, hpend]
          by_cases hi : i < n
          · rw [if_pos hi]
            cases hget : st.patches.get? i with
            | none => exact ⟨hpool, hemit⟩
            | some pp =>
                cases pp with
                | rejected => exact ⟨hpool, hemit⟩
                | fulfilled v =>
                    constructor
                    · intro pr hpr
                      have hpr2 : pr ∈ st.patches.eraseIdx i := hpr
                      exact hpool pr (List.eraseIdx_subset _ _ hpr2)
                    · intro p hflag hmem
                      have hmem2 :
                          AsyncExecutionResult.patch p hflag
                            ∈ st.emitted ++ [.patch v f] := hmem
                      rcases List.mem_append.mp hmem2 with hm | hm
                      · exact hemit p hflag hm
                      · have hv : p = v ∧ hflag = f := by
                          simpa [AsyncExecutionResult.patch.injEq] using hm
                        have hvm := hpool (.fulfilled v) (List.get?_mem hget)
                        rcases hvm with habs | ⟨l, pa, d, es, hform⟩
                        · cases habs
                        · refine ⟨l, pa, d, es, ?_⟩
                          rw [hv.1]
                          exact PatchPromise.fulfilled.inj hform
          · rw [if_neg hi]; exact ⟨hpool, hemit⟩

theorem fromAdd_run (init : ExecutionResult) (evs : List DEvent) :
    FromAdd (run init evs) := by
  induction evs using List.reverseRecOn with
  | nil => exact fromAdd_start
  | append_singleton evs e ih =>
      rw [run_append]
      exact fromAdd_step init (run init evs) e ih

/-- C8: every patch payload yielded by the dispatcher was built by
`Dispatcher.add`: it carries the `label` key iff the scheduling call
supplied a non-null label, carries the `errors` key iff the patch's errors
sink was non-empty at settlement, and always carries both `data` and
`path`. -/
theorem emitted_patch_shape (init : ExecutionResult) (evs : List DEvent)
    (p : ExecutionPatchResult) (hflag : Bool)
    (hmem : AsyncExecutionResult.patch p hflag ∈ (run init evs).emitted) :
    ∃ l pa d es, p = addValue l pa d es
      ∧ (p.label.isSome ↔ l.isSome)
      ∧ (p.errors ≠ none ↔ es ≠ [])
      ∧ p.data = some d
      ∧ p.path = some (pathToArray pa) := by
  obtain ⟨_, hemit⟩ := fromAdd_run init evs
  obtain ⟨l, pa, d, es, hform⟩ := hemit p hflag hmem
  refine ⟨l, pa, d, es, hform, ?_, ?_, ?_, ?_⟩
  · rw [hform]; exact Iff.rfl
  · rw [hform]
    show (if es = [] then none else some es) ≠ none ↔ es ≠ []
    by_cases hes : es = []
    · simp [hes]
    · simp [hes]
  · rw [hform]; rfl
  · rw [hform]; rfl

/-- Witness for C8: a labelled patch with an empty errors sink, scheduled
and then drained. -/
theorem emitted_patch_shape_witness :
    (AsyncExecutionResult.patch
        (addValue (some "L") none (.vnum 7) []) false
      ∈ (run ⟨none, []⟩ [.add (some "L") none (.ok (.vnum 7)) [],
          .next, .next, .settle 0]).emitted)
      ∧ ∃ l pa d es,
          addValue (some "L") none (.vnum 7) [] = addValue l pa d es
          ∧ ((addValue (some "L") none (.vnum 7) []).label.isSome ↔ l.isSome)
          ∧ ((addValue (some "L") none (.vnum 7) []).errors ≠ none ↔ es ≠ [])
          ∧ (addValue (some "L") none (.vnum 7) []).data = some d
          ∧ (addValue (some "L") none (.vnum 7) []).path
              = some (pathToArray pa) :=
  ⟨by decide,
    emitted_patch_shape ⟨none, []⟩
      [.add (some "L") none (.ok (.vnum 7)) [], .next, .next, .settle 0]
      (addValue (some "L") none (.vnum 7) []) false (by decide)⟩

/-- A rejected promise is stuck in the pool: it is a member, and any
pending race whose captured flag is `false` raced the singleton pool whose
only entry is the rejected promise (so that race can never settle). -/
def RejectedStuck (st : DState) : Prop :=
  PatchPromise.rejected ∈ st.patches
    ∧ ∀ f n, st.pending = some (f, n) → f = false →
        n = 1 ∧ st.patches.get? 0 = some PatchPromise.rejected

/-- The head of an appended list is the head of a non-empty left part. -/
theorem get?_zero_append {α : Type} (l l2 : List α) (h : l ≠ []) :
    (l ++ l2).get? 0 = l.get? 0 := by
  cases l with
  | nil => exact absurd rfl h
  | cons a t => rfl

theorem rejectedStuck_step (init : ExecutionResult) (st : DState)
    (e : DEvent) (h : RejectedStuck st) :
    RejectedStuck (step init st e)
      ∧ ((step init st e).emitted = st.emitted
          ∨ ∃ x, (step init st e).emitted = st.emitted ++ [x]
              ∧ hasNextOf x = true) := by
  obtain ⟨patches, hasRet, pending, emitted, saw, good⟩ := st
  obtain ⟨hm, hpendinv⟩ := h
  cases e with
  | add label path result errors =>
      refine ⟨⟨?_, ?_⟩, Or.inl rfl⟩
      · exact List.mem_append.mpr (Or.inl hm)
      · intro f n hpeq hf
        obtain ⟨hn, hget⟩ := hpendinv f n hpeq hf
        refine ⟨hn, ?_⟩
        show (patches ++ [addPromise label path result errors]).get? 0
            = some PatchPromise.rejected
        rw [get?_zero_append _ _ (List.ne_nil_of_mem hm)]
        exact hget
  | next =>
      cases pending with
      | some fn => exact ⟨⟨hm, hpendinv⟩, Or.inl rfl⟩
      | none =>
          cases hasRet with
          | false =>
              refine ⟨⟨hm, ?_⟩, Or.inr ⟨.initial init true, rfl, rfl⟩⟩
              intro f n hpeq hf
              cases hpeq
          | true =>
              cases patches with
              | nil => cases hm
              | cons p0 ps =>
                  refine ⟨⟨hm, ?_⟩, Or.inl rfl⟩
                  intro f n hpeq hf
                  have hpeq2 :
                      (some (((p0 :: ps).length != 1), (p0 :: ps).length) :
                          Option (Bool × Nat)) = some (f, n) := hpeq
                  simp only [Option.some.injEq, Prod.mk.injEq] at hpeq2
                  obtain ⟨hfeq, hneq⟩ := hpeq2
                  rw [hf] at hfeq
                  have hlen1 : (p0 :: ps).length = 1 := by
                    simpa using hfeq
                  cases ps with
                  | cons q qs => simp at hlen1
                  | nil =>
                      refine ⟨by rw [← hneq, hlen1], ?_⟩
                      have hp0 : p0 = PatchPromise.rejected := by
                        rcases List.mem_cons.mp hm with hh | hh
                        · exact hh.symm
                        · cases hh
                      show some p0 = some PatchPromise.rejected
                      rw [hp0]
  | settle i =>
      cases pending with
      | none => exact ⟨⟨hm, hpendinv⟩, Or.inl rfl⟩
      | some fn =>
          obtain ⟨f, n⟩ := fn
          by_cases hi : i < n
          · simp only [step, if_pos hi]
            cases hget : patches.get? i with
            | none => exact ⟨⟨hm, hpendinv⟩, Or.inl (by trivial)⟩
            | some pp =>
                cases pp with
                | rejected => exact ⟨⟨hm, hpendinv⟩, Or.inl (by trivial)⟩
                | fulfilled v =>
                    have hft : f = true := by
                      cases hfc : f
                      · obtain ⟨hn, hget0⟩ := hpendinv f n rfl hfc
                        have hi0 : i = 0 := by omega
                        rw [hi0, hget0] at hget
                        cases hget
                      · rfl
                    refine ⟨⟨?_, ?_⟩, Or.inr ⟨.patch v f, ?_, hft⟩⟩
                    · exact mem_eraseIdx_of_ne patches i hm hget
                        (by intro habs; cases habs)
                    · intro f2 n2 hpeq hf2
                      cases hpeq
                    · trivial
          · simp only [step, if_neg hi]
            exact ⟨⟨hm, hpendinv⟩, Or.inl (by trivial)⟩

theorem rejectedStuck_fold (init : ExecutionResult) (st : DState)
    (evs : List DEvent) (h : RejectedStuck st) :
    RejectedStuck (evs.foldl (step init) st)
      ∧ ∃ tail, (evs.foldl (step init) st).emitted = st.emitted ++ tail
          ∧ ∀ x ∈ tail, hasNextOf x = true := by
  induction evs generalizing st with
  | nil => exact ⟨h, [], by simp, by intro x hx; cases hx⟩
  | cons e rest ih =>
      obtain ⟨h1, hdelta⟩ := rejectedStuck_step init st e h
      obtain ⟨h2, tail, htail, hall⟩ := ih (step init st e) h1
      rcases hdelta with hsame | ⟨x, hx, hxt⟩
      · exact ⟨h2, tail, by rw [List.foldl_cons, htail, hsame], hall⟩
      · refine ⟨h2, x :: tail, ?_, ?_⟩
        · rw [List.foldl_cons, htail, hx, List.append_assoc]
          rfl
        · intro y hy
          rcases List.mem_cons.mp hy with hh | hh
          · rw [hh]; exact hxt
          · exact hall y hh

/-- C9: once a worker's promise has rejected, the rejected entry is a pool
member forever (a race is only ever won by a fulfilled promise, and only
the winner is spliced out); the sequence can never reach the terminated
state, and every element yielded from then on carries `hasNext: true` — so
no terminal element is ever yielded after the rejection.  Workers must
capture their own errors into the errors sink for the sequence to
complete. -/
theorem rejected_worker_blocks_termination (init : ExecutionResult)
    (evs1 evs2 : List DEvent)
    (hrej : PatchPromise.rejected ∈ (run init evs1).patches)
    (hpend : (run init evs1).pending = none) :
    PatchPromise.rejected ∈ (run init (evs1 ++ evs2)).patches
      ∧ ¬ complete (run init (evs1 ++ evs2))
      ∧ ∃ tail, (run init (evs1 ++ evs2)).emitted
            = (run init evs1).emitted ++ tail
          ∧ ∀ x ∈ tail, hasNextOf x = true := by
  have hbase : RejectedStuck (run init evs1) := by
    refine ⟨hrej, ?_⟩
    intro f n hpeq hf
    rw [hpend] at hpeq; cases hpeq
  have hfold := rejectedStuck_fold init (run init evs1) evs2 hbase
  rw [← run_append] at hfold
  obtain ⟨⟨hmem, _⟩, htail⟩ := hfold
  refine ⟨hmem, ?_, htail⟩
  intro hcomp
  obtain ⟨_, _, hpool⟩ := hcomp
  rw [hpool] at hmem
  cases hmem

/-- Witness for C9: a rejecting worker scheduled before consumption; the
subsequent pulls never deliver a terminal element and never terminate. -/
theorem rejected_worker_blocks_termination_witness :
    (PatchPromise.rejected
        ∈ (run ⟨none, []⟩ [.add none none (.error ()) [], .next]).patches
      ∧ (run ⟨none, []⟩ [.add none none (.error ()) [], .next]).pending
          = none)
      ∧ (PatchPromise.rejected
          ∈ (run ⟨none, []⟩ ([.add none none (.error ()) [], .next]
              ++ [.next, .settle 0, .next])).patches
        ∧ ¬ complete (run ⟨none, []⟩ ([.add none none (.error ()) [], .next]
              ++ [.next, .settle 0, .next]))
        ∧ ∃ tail, (run ⟨none, []⟩ ([.add none none (.error ()) [], .next]
              ++ [.next, .settle 0, .next])).emitted
            = (run ⟨none, []⟩ [.add none none (.error ()) [], .next]).emitted
                ++ tail
            ∧ ∀ x ∈ tail, hasNextOf x = true) :=
  ⟨⟨by decide, by decide⟩,
    rejected_worker_blocks_termination ⟨none, []⟩
      [.add none none (.error ()) [], .next] [.next, .settle 0, .next]
      (by decide) (by decide)⟩

/-- Translation of `Dispatcher.hasPatches` (part_003 lines 82-84):
`this._patches.length !== 0`. -/
def hasPatches (st : DState) : Bool := st.patches.length != 0

/-- The early-era `Dispatcher.get` of `dispatcher.js` (lines 44-48):
returns `null` — no patch sequence — when the pool is empty, otherwise the
iterable over the pool. -/
def getOrNull (st : DState) : Option (List PatchPromise) :=
  if st.patches.length = 0 then none else some st.patches

/-- The executor's overall result: either a single plain record or the
lazy sequence wrapping the initial result together with the pool. -/
inductive ExecuteResult where
  | single (r : ExecutionResult)
  | sequence (r : ExecutionResult) (st : DState)
  deriving DecidableEq

/-- Modelled from the spec: §4.5/§6 — `execute.js` (the Executor) is not
under `src/`.  After the initial walk the Executor returns the initial
result as a single value when the Dispatcher has scheduled no work
(`hasPatches` false), and otherwise the lazy sequence from
`Dispatcher.get`. -/
def buildResponse (st : DState) (init : ExecutionResult) : ExecuteResult :=
  if hasPatches st then .sequence init st else .single init

/-- C5: when the dispatcher's patch pool is empty after the initial walk,
`execute` returns the plain initial record as a single value — not an
asynchronous sequence — and the early-era `get` returns `null`. -/
theorem empty_pool_returns_single_value (st : DState)
    (init : ExecutionResult) (h : st.patches = []) :
    buildResponse st init = .single init ∧ getOrNull st = none := by
  constructor
  · unfold buildResponse hasPatches
    rw [h]
    rfl
  · unfold getOrNull
    rw [h]
    rfl

/-- Witness for C5 at the start state. -/
theorem empty_pool_returns_single_value_witness :
    DState.start.patches = []
      ∧ buildResponse DState.start ⟨none, []⟩ = .single ⟨none, []⟩
      ∧ getOrNull DState.start = none :=
  ⟨rfl,
    (empty_pool_returns_single_value DState.start ⟨none, []⟩ rfl).1,
    (empty_pool_returns_single_value DState.start ⟨none, []⟩ rfl).2⟩

mutual

/-- Apply a patch's data at a response path inside a completed value: at
the empty path the data lands on the value itself (the root); a key
segment descends into an object field, an index segment into a list
element. -/
def replaceAtPath : Value → List Seg → Value → Value
  | _, [], d => d
  | .vobj fs, .key k :: rest, d => .vobj (replaceInFields fs k rest d)
  | .vlist xs, .idx i :: rest, d => .vlist (replaceInList xs i rest d)
  | v, .key _ :: _, _ => v
  | v, .idx _ :: _, _ => v

/-- Descend into the named object field. -/
def replaceInFields : ObjFields → String → List Seg → Value → ObjFields
  | .nil, _, _, _ => .nil
  | .cons k v rest, k2, segs, d =>
      if k = k2 then .cons k (replaceAtPath v segs d) rest
      else .cons k v (replaceInFields rest k2 segs d)

/-- Descend into the indexed list element. -/
def replaceInList : ValueList → Nat → List Seg → Value → ValueList
  | .nil, _, _, _ => .nil
  | .cons v rest, 0, segs, d => .cons (replaceAtPath v segs d) rest
  | .cons v rest, i + 1, segs, d => .cons v (replaceInList rest i segs d)

end

/-- C10: scheduling a deferred group whose response path is `undefined`
(a fragment deferred on the root operation type) produces a patch whose
`path` field is the empty array — `pathToArray(undefined)` flattens to
`[]` — and applying data at the empty path rewrites the root of the
initial result, so the patch is anchored at the root. -/
theorem undefined_path_patch_anchored_at_root (label : Option String)
    (d : Value) (es : List GraphQLError) :
    (addValue label none d es).path = some []
      ∧ pathToArray none = []
      ∧ ∀ r : Value, replaceAtPath r (pathToArray none) d = d :=
  ⟨rfl, rfl, fun r => by cases r <;> rfl⟩

/-- Build a `ValueList` from a Lean list of values. -/
def ValueList.ofList : List Value → ValueList
  | [] => .nil
  | v :: rest => .cons v (ValueList.ofList rest)

/-- How an async-iterator source ends after its yields: normal completion
(`done`) or a thrown error. -/
inductive IterEnd where
  | done
  | thrown (e : GraphQLError)
  deriving DecidableEq

/-- The source of a `@stream`ed list field: a finite ordered sequence, or
an async iterator that yields some values and then completes or throws. -/
inductive StreamSource where
  | sequence (items : List Value)
  | iterator (yields : List Value) (outcome : IterEnd)
  deriving DecidableEq

/-- Result of driving one streamed list field: the inline prefix and the
patches scheduled on the dispatcher, or — when the source fails while the
initial elements are drawn — the field's value and the located error
recorded on the initial result (no patches are scheduled then). -/
inductive StreamFieldResult where
  | ok (inline : List Value) (patches : List ExecutionPatchResult)
  | initialError (fieldValue : Value) (err : GraphQLError)
  deriving DecidableEq

/-- The patch scheduled for the streamed element at index `i`. -/
def streamItemPatch (label : Option String) (basePath : List Seg) (i : Nat)
    (item : Value) : ExecutionPatchResult :=
  { data := some item
    path := some (basePath ++ [Seg.idx i])
    label := label
    errors := none }

/-- The failing patch when the iterator throws after `initialCount`:
`data: null` and the located error at the failing index. -/
def streamErrorPatch (label : Option String) (basePath : List Seg) (i : Nat)
    (e : GraphQLError) : ExecutionPatchResult :=
  { data := some Value.vnull
    path := some (basePath ++ [Seg.idx i])
    label := label
    errors := some [⟨e.message, e.locations, basePath ++ [Seg.idx i]⟩] }

/-- The closing patch of an async-iterator stream: no `data`, no `path`,
no `label`, no `errors` — the emitted element carries only the terminal
flag. -/
def streamClosingPatch : ExecutionPatchResult :=
  { data := none, path := none, label := none, errors := none }

/-- The patches for the remaining items, indexed from `i`. -/
def streamPatchesFrom (label : Option String) (basePath : List Seg) :
    Nat → List Value → List ExecutionPatchResult
  | _, [] => []
  | i, item :: rest =>
      streamItemPatch label basePath i item
        :: streamPatchesFrom label basePath (i + 1) rest

/-- Modelled from the spec: §4.4 — `execute.js` (the StreamDriver) is not
under `src/`.  `initialCount` elements are materialized inline; the rest
are scheduled as individual patches at `path = [...list_path, index]` with
the directive's label.  A sequence source schedules one patch per
remaining element and no closing marker.  An iterator source draws the
first `initialCount` elements eagerly: a throw during that phase aborts
the list — the located error goes to the initial result, the failing
element becomes null (propagating to the whole field only for a non-null
item type), and no patches are scheduled; past `initialCount`, each drawn
element becomes a patch, a throw becomes a final `data: null` patch
carrying the error, and normal completion appends the closing patch with
no `data` and no `path`. -/
def driveStream (itemNullable : Bool) (label : Option String)
    (basePath : List Seg) (initialCount : Nat) :
    StreamSource → StreamFieldResult
  | .sequence items =>
      .ok (items.take initialCount)
        (streamPatchesFrom label basePath initialCount
          (items.drop initialCount))
  | .iterator yields outcome =>
      if yields.length < initialCount then
        match outcome with
        | .done => .ok yields []
        | .thrown e =>
            .initialError
              (if itemNullable then
                  Value.vlist (ValueList.ofList (yields ++ [Value.vnull]))
                else Value.vnull)
              ⟨e.message, e.locations,
                basePath ++ [Seg.idx yields.length]⟩
      else
        .ok (yields.take initialCount)
          (streamPatchesFrom label basePath initialCount
              (yields.drop initialCount)
            ++ match outcome with
               | .done => [streamClosingPatch]
               | .thrown e =>
                   [streamErrorPatch label basePath yields.length e])

/-- Every per-item patch carries both `data` and `path`. -/
theorem streamPatchesFrom_shape (label : Option String)
    (basePath : List Seg) :
    ∀ (i : Nat) (items : List Value) (p : ExecutionPatchResult),
      p ∈ streamPatchesFrom label basePath i items →
        p.data.isSome = true ∧ p.path.isSome = true
  | _, [], p, hp => absurd hp (List.not_mem_nil p)
  | i, item :: rest, p, hp => by
      rcases List.mem_cons.mp hp with hh | hh
      · rw [hh]; exact ⟨rfl, rfl⟩
      · exact streamPatchesFrom_shape label basePath (i + 1) rest p hh

/-- C2 (spec-modelled): an async-iterator stream source that runs to
completion ends its scheduled patches with the closing patch — which
carries no `data` and no `path`; a finite-sequence source schedules only
per-item patches, every one of which carries `data` and `path`, so no
closing marker is ever emitted for it. -/
theorem iterator_stream_emits_closing_patch (itemNullable : Bool)
    (label : Option String) (basePath : List Seg) (k : Nat)
    (yields : List Value) (items : List Value)
    (hk : k ≤ yields.length) :
    (∃ inline patches,
        driveStream itemNullable label basePath k (.iterator yields .done)
          = .ok inline patches
        ∧ patches.getLast? = some streamClosingPatch
        ∧ streamClosingPatch.data = none
        ∧ streamClosingPatch.path = none)
      ∧ ∀ p, driveStream itemNullable label basePath k (.sequence items)
          = .ok (items.take k)
              (streamPatchesFrom label basePath k (items.drop k))
        ∧ (p ∈ streamPatchesFrom label basePath k (items.drop k) →
            p.data.isSome = true ∧ p.path.isSome = true
              ∧ p ≠ streamClosingPatch) := by
  constructor
  · refine ⟨yields.take k,
      streamPatchesFrom label basePath k (yields.drop k)
        ++ [streamClosingPatch], ?_, ?_, rfl, rfl⟩
    · simp only [driveStream]
      rw [if_neg (by omega)]
    · exact List.getLast?_concat _
  · intro p
    refine ⟨rfl, ?_⟩
    intro hp
    obtain ⟨hd, hpth⟩ :=
      streamPatchesFrom_shape label basePath k (items.drop k) p hp
    refine ⟨hd, hpth, ?_⟩
    intro habs
    rw [habs] at hd
    cases hd

/-- Witness for C2: three yielded items with `initialCount` 2 produce one
item patch followed by the closing patch; the same items as a sequence
produce only the item patch. -/
theorem iterator_stream_emits_closing_patch_witness :
    (2 ≤ ([Value.vnum 1, Value.vnum 2, Value.vnum 3] : List Value).length)
      ∧ ((∃ inline patches,
          driveStream true none [Seg.key "f"] 2
              (.iterator [Value.vnum 1, Value.vnum 2, Value.vnum 3] .done)
            = .ok inline patches
          ∧ patches.getLast? = some streamClosingPatch
          ∧ streamClosingPatch.data = none
          ∧ streamClosingPatch.path = none)
        ∧ ∀ p, driveStream true none [Seg.key "f"] 2
            (.sequence [Value.vnum 1, Value.vnum 2, Value.vnum 3])
            = .ok ([Value.vnum 1, Value.vnum 2, Value.vnum 3].take 2)
                (streamPatchesFrom none [Seg.key "f"] 2
                  ([Value.vnum 1, Value.vnum 2, Value.vnum 3].drop 2))
          ∧ (p ∈ streamPatchesFrom none [Seg.key "f"] 2
                ([Value.vnum 1, Value.vnum 2, Value.vnum 3].drop 2) →
              p.data.isSome = true ∧ p.path.isSome = true
                ∧ p ≠ streamClosingPatch)) :=
  ⟨by decide,
    iterator_stream_emits_closing_patch true none [Seg.key "f"] 2
      [Value.vnum 1, Value.vnum 2, Value.vnum 3]
      [Value.vnum 1, Value.vnum 2, Value.vnum 3] (by decide)⟩

/-- The field value recorded when a stream aborts during the initial
draw (`none` when the drive produced patches instead). -/
def fieldValueOf : StreamFieldResult → Option Value
  | .ok _ _ => none
  | .initialError fv _ => some fv

/-- The test scenario of `stream-test.js:349-382`: the iterator yields one
friend object and then throws `bad` while `initialCount: 2` elements are
being drawn. -/
def lukeObj : Value :=
  .vobj (.cons "name" (.vstr "Luke") (.cons "id" (.vnum 1) .nil))

/-- C3 counterexample: in the failing-initial-draw scenario the streamed
field's value is the partial list `[luke, null]` — the failing element
becomes null, the field itself does not — refuting "the streamed field's
value becomes null (null propagated to the field)". -/
theorem stream_initial_throw_field_not_null :
    fieldValueOf (driveStream true none [Seg.key "asyncIterableError"] 2
        (.iterator [lukeObj] (.thrown ⟨"bad", [(3, 9)], []⟩)))
      = some (Value.vlist (ValueList.cons lukeObj
          (ValueList.cons Value.vnull ValueList.nil)))
      ∧ ¬ fieldValueOf (driveStream true none [Seg.key "asyncIterableError"] 2
          (.iterator [lukeObj] (.thrown ⟨"bad", [(3, 9)], []⟩)))
        = some Value.vnull := by
  constructor
  · rfl
  · intro habs
    cases habs

/-- C3 (amended, spec-modelled): when an async-iterator source throws
while the initial `initialCount` elements are drawn, the located error
(at the failing index) is recorded on the initial result, the list is
aborted with the failing element null — the field keeps the partial list
for a nullable item type and becomes null itself only for a non-null item
type — and no patches are scheduled for that stream. -/
theorem stream_initial_throw_aborts_list (itemNullable : Bool)
    (label : Option String) (basePath : List Seg) (k : Nat)
    (yields : List Value) (e : GraphQLError)
    (h : yields.length < k) :
    driveStream itemNullable label basePath k (.iterator yields (.thrown e))
      = .initialError
          (if itemNullable then
              Value.vlist (ValueList.ofList (yields ++ [Value.vnull]))
            else Value.vnull)
          ⟨e.message, e.locations, basePath ++ [Seg.idx yields.length]⟩ := by
  simp only [driveStream]
  rw [if_pos h]

/-- Witness for the amended C3 theorem at the test scenario. -/
theorem stream_initial_throw_aborts_list_witness :
    (([lukeObj] : List Value).length < 2)
      ∧ driveStream true none [Seg.key "asyncIterableError"] 2
          (.iterator [lukeObj] (.thrown ⟨"bad", [(3, 9)], []⟩))
        = .initialError
            (if true then
                Value.vlist (ValueList.ofList ([lukeObj] ++ [Value.vnull]))
              else Value.vnull)
            ⟨"bad", [(3, 9)],
              [Seg.key "asyncIterableError"] ++ [Seg.idx 1]⟩ :=
  ⟨by decide,
    stream_initial_throw_aborts_list true none [Seg.key "asyncIterableError"]
      2 [lukeObj] ⟨"bad", [(3, 9)], []⟩ (by decide)⟩

end Dispatcher

/-- The arguments of a `@stream` directive:
`@stream(if: Boolean = true, label: String, initialCount: Int = 0)`. -/
structure StreamDirective where
  ifArg : Bool
  label : Option String
  initialCount : Nat
  deriving DecidableEq

/-- The arguments of a `@defer` directive:
`@defer(if: Boolean = true, label: String)`. -/
structure DeferDirective where
  ifArg : Bool
  label : Option String
  deriving DecidableEq

mutual

/-- Modelled from the spec: §4.1 — a selection is a field (with optional
`@stream`) or a fragment spread / inline fragment (with optional
`@defer`); `execute.js` (the FieldCollector) is not under `src/`. -/
inductive Selection where
  | field (responseKey : String) (stream : Option StreamDirective)
      (subsel : SelectionSet)
  | frag (defer : Option DeferDirective) (sel : SelectionSet)

/-- An ordered selection set. -/
inductive SelectionSet where
  | nil
  | cons (s : Selection) (rest : SelectionSet)

end

/-- Concatenation of selection sets (fragment merging). -/
def SelectionSet.append : SelectionSet → SelectionSet → SelectionSet
  | .nil, t => t
  | .cons s r, t => .cons s (SelectionSet.append r t)

/-- A `@stream` whose `if` argument is false behaves exactly as no
directive; only an active directive survives. -/
def activeStream : Option StreamDirective → Option StreamDirective
  | none => none
  | some sd => if sd.ifArg then some sd else none

/-- A `@defer` whose `if` argument is false behaves exactly as no
directive; only an active directive survives. -/
def activeDefer : Option DeferDirective → Option DeferDirective
  | none => none
  | some dd => if dd.ifArg then some dd else none

/-- Whether a fragment's `@defer` actually defers (present and `if`
true). -/
def deferActive : Option DeferDirective → Bool
  | none => false
  | some dd => dd.ifArg

/-- Modelled from the spec: §4.1 step 2 and §4.4 item 4 — the flattened
execution plan of a selection set.  A fragment whose `@defer` is absent or
disabled (`if: false`) is merged into the surrounding selection; a
fragment with an active `@defer` stays a separately schedulable deferred
group; a field keeps its `@stream` only when active.  Execution output is
a function of this plan. -/
def flattenSS : SelectionSet → SelectionSet
  | .nil => .nil
  | .cons (.field k s sub) rest =>
      .cons (.field k (activeStream s) (flattenSS sub)) (flattenSS rest)
  | .cons (.frag d sel) rest =>
      if deferActive d then
        .cons (.frag d (flattenSS sel)) (flattenSS rest)
      else
        SelectionSet.append (flattenSS sel) (flattenSS rest)

/-- Remove every `@defer(if: false)` and `@stream(if: false)` directive
from a document, leaving everything else unchanged. -/
def eraseIfFalse : SelectionSet → SelectionSet
  | .nil => .nil
  | .cons (.field k s sub) rest =>
      .cons (.field k (activeStream s) (eraseIfFalse sub))
        (eraseIfFalse rest)
  | .cons (.frag d sel) rest =>
      .cons (.frag (activeDefer d) (eraseIfFalse sel)) (eraseIfFalse rest)

/-- C6 (spec-modelled): removing `@stream(if: false, ...)` and
`@defer(if: false, ...)` directives from an operation leaves the flattened
execution plan — and hence the execution output, which is a function of
it — exactly unchanged: the disabled directives are inert. -/
theorem if_false_directives_inert (ss : SelectionSet) :
    flattenSS (eraseIfFalse ss) = flattenSS ss := by
  induction ss using flattenSS.induct with
  | case1 => rfl
  | case2 k s sub rest ihsub ihrest =>
      simp only [eraseIfFalse, flattenSS, ihsub, ihrest]
      cases s with
      | none => simp [activeStream]
      | some sd =>
          by_cases hif : sd.ifArg
          · simp [activeStream, hif]
          · simp [activeStream, hif]
  | case3 d sel rest hact ihsel ihrest =>
      have hd : activeDefer d = d := by
        cases d with
        | none => rfl
        | some dd =>
            cases hdd : dd.ifArg
            · rw [deferActive] at hact; rw [hdd] at hact; cases hact
            · simp [activeDefer, hdd]
      simp only [eraseIfFalse, flattenSS, hd, hact, if_true, ihsel, ihrest]
  | case4 d sel rest hact ihsel ihrest =>
      have hact2 : deferActive d = false := by
        cases hdf : deferActive d
        · rfl
        · exact absurd hdf hact
      have hd : deferActive (activeDefer d) = false := by
        cases d with
        | none => rfl
        | some dd =>
            cases hdd : dd.ifArg
            · simp [activeDefer, deferActive, hdd]
            · exfalso
              simp only [deferActive, hdd] at hact2
              cases hact2
      simp only [eraseIfFalse, flattenSS, ihsel, ihrest, hd, hact2]
      simp

/-- One field selection as seen by the stream-conflict check: response
key, parent type, optional `@stream` arguments, and the AST location of
the selection. -/
structure FieldSel where
  responseKey : String
  parentType : String
  stream : Option StreamDirective
  loc : Nat × Nat
  deriving DecidableEq

/-- A query-validation error: message and the AST locations it cites. -/
structure ValidationError where
  message : String
  locations : List (Nat × Nat)
  deriving DecidableEq

/-- The conflict message of the rule, as asserted by the stream-conflict
tests. -/
def streamConflictMessage (responseName : String) : String :=
  "Fields \"" ++ responseName
    ++ "\" conflict because they have differing stream directives. "
    ++ "Use different aliases on the fields to fetch both if this was "
    ++ "intentional."

/-- Two selections conflict when they share a response key on the same
parent type but their stream directives differ — in `label`,
`initialCount` or `if`, or one has `@stream` and the other has none. -/
def conflictingStream (a b : FieldSel) : Bool :=
  decide (a.responseKey = b.responseKey)
    && decide (a.parentType = b.parentType)
    && !(decide (a.stream = b.stream))

/-- Modelled from the spec: §4.1 conflict check — the stream-conflict
validation rule is not under `src/` (only its tests are).  For every
ordered pair of conflicting selections, emit one error citing both AST
locations. -/
def findStreamConflicts : List FieldSel → List ValidationError
  | [] => []
  | a :: rest =>
      (rest.filter (conflictingStream a)).map
        (fun b => ⟨streamConflictMessage a.responseKey, [a.loc, b.loc]⟩)
        ++ findStreamConflicts rest

/-- A validated request: rejected with the validation errors — execution
does not begin — or allowed to proceed. -/
inductive ValidatedRequest where
  | rejected (errors : List ValidationError)
  | proceed (fields : List FieldSel)
  deriving DecidableEq

/-- Modelled from the spec: §6/§7 — validation runs before execution; a
request with validation errors returns only those errors and execution
never begins. -/
def validateThenExecute (fields : List FieldSel) : ValidatedRequest :=
  match findStreamConflicts fields with
  | [] => .proceed fields
  | e :: es => .rejected (e :: es)

/-- C7 (spec-modelled): two field selections sharing a response key on the
same parent type with differing stream directives produce exactly one
validation error, citing both AST locations, and execution does not begin;
with identical stream directives no error is produced and the request
proceeds. -/
theorem stream_conflict_exactly_one_error (a b : FieldSel)
    (hkey : a.responseKey = b.responseKey)
    (hty : a.parentType = b.parentType) :
    (a.stream ≠ b.stream →
        findStreamConflicts [a, b]
          = [⟨streamConflictMessage a.responseKey, [a.loc, b.loc]⟩]
        ∧ validateThenExecute [a, b]
          = .rejected [⟨streamConflictMessage a.responseKey,
              [a.loc, b.loc]⟩])
      ∧ (a.stream = b.stream →
          findStreamConflicts [a, b] = []
          ∧ validateThenExecute [a, b] = .proceed [a, b]) := by
  constructor
  · intro hne
    have hc : conflictingStream a b = true := by
      simp [conflictingStream, hkey, hty, hne]
    have hfind : findStreamConflicts [a, b]
        = [⟨streamConflictMessage a.responseKey, [a.loc, b.loc]⟩] := by
      simp [findStreamConflicts, hc]
    exact ⟨hfind, by simp [validateThenExecute, hfind]⟩
  · intro heq
    have hc : conflictingStream a b = false := by
      simp [conflictingStream, heq]
    have hfind : findStreamConflicts [a, b] = [] := by
      simp [findStreamConflicts, hc]
    exact ⟨hfind, by simp [validateThenExecute, hfind]⟩

/-- Witness for C7: the same response key streamed with two different
labels conflicts; with identical directives it does not. -/
theorem stream_conflict_exactly_one_error_witness :
    (let a : FieldSel :=
      ⟨"friends", "Character", some ⟨true, some "idLabel", 1⟩, (4, 13)⟩
     let b : FieldSel :=
      ⟨"friends", "Character", some ⟨true, some "nameLabel", 1⟩, (11, 11)⟩
     a.responseKey = b.responseKey ∧ a.parentType = b.parentType
      ∧ a.stream ≠ b.stream
      ∧ findStreamConflicts [a, b]
          = [⟨streamConflictMessage "friends", [(4, 13), (11, 11)]⟩]
      ∧ validateThenExecute [a, b]
          = .rejected [⟨streamConflictMessage "friends",
              [(4, 13), (11, 11)]⟩]) := by
  refine ⟨rfl, rfl, by decide, ?_⟩
  have h := stream_conflict_exactly_one_error
    ⟨"friends", "Character", some ⟨true, some "idLabel", 1⟩, (4, 13)⟩
    ⟨"friends", "Character", some ⟨true, some "nameLabel", 1⟩, (11, 11)⟩
    rfl rfl
  exact h.1 (by decide)

end GraphQLIncremental
